import Mathlib

/-!
Shallow embedding of the compressed block store in src/compress/src/lib.rs.

Modelling conventions:
* `u32`, `u8` and `usize` values are embedded as `Nat`; overflow is modelled
  exactly where the Rust debug build checks it (the `value + 1` computation in
  `find_block` and the `left - 1` result computation), matching the build
  configuration under which the repository's tests run.  A Rust panic
  (arithmetic overflow check, `debug_assert!`, `.expect(..)`, out-of-range
  slice) is embedded as `Except.error` with the corresponding message; a
  normal return is `Except.ok`.
* The third-party bitpacking codec (`BitPacker4x` from the `bitpacking`
  crate) is not part of this repository; its three entry points
  (`num_bits_sorted`, `compress_sorted`, `decompress_sorted`) are modelled
  from the spec, section 4.1.
* The two-pointer binary-search loop of `find_block` is embedded with an
  explicit fuel argument (`blocks.length + 1`), which strictly exceeds the
  number of loop iterations (the interval `right - left` shrinks by at least
  one per iteration from an initial size of `blocks.length`), so the
  fuel-exhaustion branch is never taken for the call made by `find_block`.
-/

namespace Chidx

/-- Rust: `const BLOCK_SIZE: usize = 128;` -/
def BLOCK_SIZE : Nat := 128

/-- Rust: `struct StorageBlock { initial: u32, start: usize, bits: u8 }` -/
structure StorageBlock where
  initial : Nat
  start : Nat
  bits : Nat
deriving DecidableEq

instance : Inhabited StorageBlock := ⟨⟨0, 0, 0⟩⟩

/-- Rust: `struct CompressedStorage { bitpacker, blocks, compressed, buffer }`.
The `bitpacker` field is a stateless codec handle and carries no data. -/
structure CompressedStorage where
  blocks : List StorageBlock
  compressed : List Nat
  buffer : List Nat
deriving DecidableEq

deriving instance DecidableEq for Except

/-- Fuel-bounded computation of the number of bits needed to represent `n`
(`0` for `n = 0`, otherwise the position of the highest set bit plus one).
Structural recursion on the fuel keeps the definition kernel-reducible; the
fuel `64` used below suffices for every value below `2 ^ 64`. -/
def bitWidthAux : Nat → Nat → Nat
  | 0, _ => 0
  | fuel + 1, n => if n = 0 then 0 else bitWidthAux fuel (n / 2) + 1

def bitWidth (n : Nat) : Nat := bitWidthAux 64 n

/-- The largest delta `v - initial` over the batch (0 for the empty batch). -/
def maxDelta (initial : Nat) (values : List Nat) : Nat :=
  values.foldr (fun v m => max (v - initial) m) 0

/-- Modelled from the spec: `required_bit_width(base, values[128]) -> bits`,
"the smallest bit width b such that every values[i] - base fits in b bits"
(the `BitPacker4x::num_bits_sorted` entry point of the external codec). -/
def num_bits_sorted (initial : Nat) (values : List Nat) : Nat :=
  bitWidth (maxDelta initial values)

/-- The deltas of a batch, packed little-endian at a uniform width of `bits`
bits each, read as one natural number.  A delta that does not fit in `bits`
bits is truncated, mirroring the lossiness the spec allows for an
insufficient width. -/
def packDeltas (bits : Nat) : List Nat → Nat
  | [] => 0
  | d :: ds => d % 2 ^ bits + 2 ^ bits * packDeltas bits ds

/-- The `k` little-endian base-256 digits of `n`: the byte serialization of a
packed block. -/
def natToBytes : Nat → Nat → List Nat
  | 0, _ => []
  | k + 1, n => n % 256 :: natToBytes k (n / 256)

def bytesToNat : List Nat → Nat
  | [] => 0
  | b :: bs => b + 256 * bytesToNat bs

/-- Splits a packed natural number back into `count` deltas of `bits` bits. -/
def unpackDeltas (bits : Nat) : Nat → Nat → List Nat
  | 0, _ => []
  | k + 1, n => n % 2 ^ bits :: unpackDeltas bits k (n / 2 ^ bits)

/-- Modelled from the spec: `pack(base, values[128], bits) -> bytes`, "writes
128 * bits / 8 bytes, each value stored as value - base in bits bits, tightly
packed" (the `BitPacker4x::compress_sorted` entry point). -/
def pack (initial : Nat) (values : List Nat) (bits : Nat) : List Nat :=
  natToBytes (BLOCK_SIZE * bits / 8) (packDeltas bits (values.map (fun v => v - initial)))

/-- Modelled from the spec: `unpack(base, bytes, bits) -> values[128]`,
"inverse of pack; always produces exactly 128 values by adding base back to
each unpacked delta" (the `BitPacker4x::decompress_sorted` entry point). -/
def unpack (initial : Nat) (bytes : List Nat) (bits : Nat) : List Nat :=
  (unpackDeltas bits BLOCK_SIZE (bytesToNat bytes)).map (fun d => initial + d)

/-- The duplicated fragment inside `compress_buffer` (source lines 69-79): it
builds the multiples of 7 in `[100000, 100896)`, compresses them into a local
buffer and never uses the result. -/
def deadFragment : List Nat :=
  let start := 100000
  let original := ((List.range 896).map (fun i => start + i)).filter (fun i => i % 7 == 0)
  let num_bits := num_bits_sorted start original
  pack start original num_bits

/-- Rust: `CompressedStorage::new()`. -/
def CompressedStorage.new : CompressedStorage := ⟨[], [], []⟩

/-- Rust: `CompressedStorage::compress_buffer` (source lines 40-83), including
the dead fragment.  The `debug_assert_eq!(self.buffer.len(), BLOCK_SIZE)` and
the `debug_assert_eq!(block.len(), bytes)` become error branches; the
`.expect("buffer[0] missing")` on `buffer.get(0)` becomes the `head?` match. -/
def compress_buffer (s : CompressedStorage) : Except String CompressedStorage :=
  if s.buffer.length = BLOCK_SIZE then
    match s.buffer.head? with
    | none => Except.error "buffer[0] missing"
    | some initial =>
      let bits := num_bits_sorted initial s.buffer
      let bytes := BLOCK_SIZE * bits / 8
      let block := pack initial s.buffer bits
      if block.length = bytes then
        let _dead := deadFragment
        Except.ok ⟨s.blocks ++ [⟨initial, s.compressed.length, bits⟩],
                   s.compressed ++ block, []⟩
      else Except.error "assertion failed: block.len() == bytes"
  else Except.error "assertion failed: buffer.len() == BLOCK_SIZE"

/-- `compress_buffer` with the dead fragment (source lines 69-79) removed;
used only to state the observational-equivalence claim about that fragment. -/
def compress_buffer_clean (s : CompressedStorage) : Except String CompressedStorage :=
  if s.buffer.length = BLOCK_SIZE then
    match s.buffer.head? with
    | none => Except.error "buffer[0] missing"
    | some initial =>
      let bits := num_bits_sorted initial s.buffer
      let bytes := BLOCK_SIZE * bits / 8
      let block := pack initial s.buffer bits
      if block.length = bytes then
        Except.ok ⟨s.blocks ++ [⟨initial, s.compressed.length, bits⟩],
                   s.compressed ++ block, []⟩
      else Except.error "assertion failed: block.len() == bytes"
  else Except.error "assertion failed: buffer.len() == BLOCK_SIZE"

/-- Rust: `CompressedStorage::decompress_block` (source lines 85-94).  The
`.expect("block exists")` and the slice `self.compressed[start..start+bytes]`
(which panics when out of range) become error branches. -/
def decompress_block (s : CompressedStorage) (block : Nat) : Except String (List Nat) :=
  match s.blocks[block]? with
  | none => Except.error "block exists"
  | some b =>
    let bytes := BLOCK_SIZE * b.bits / 8
    if b.start + bytes ≤ s.compressed.length then
      Except.ok (unpack b.initial ((s.compressed.drop b.start).take bytes) b.bits)
    else Except.error "range end index out of range for slice"

/-- Rust: `CompressedStorage::add` (source lines 96-101): push, then compress
when the buffer has reached `BLOCK_SIZE`. -/
def add (s : CompressedStorage) (value : Nat) : Except String CompressedStorage :=
  if (s.buffer ++ [value]).length = BLOCK_SIZE then
    compress_buffer ⟨s.blocks, s.compressed, s.buffer ++ [value]⟩
  else Except.ok ⟨s.blocks, s.compressed, s.buffer ++ [value]⟩

/-- `add` routed through `compress_buffer_clean`; used only for the
dead-fragment equivalence claim. -/
def add_clean (s : CompressedStorage) (value : Nat) : Except String CompressedStorage :=
  if (s.buffer ++ [value]).length = BLOCK_SIZE then
    compress_buffer_clean ⟨s.blocks, s.compressed, s.buffer ++ [value]⟩
  else Except.ok ⟨s.blocks, s.compressed, s.buffer ++ [value]⟩

/-- Rust: `CompressedStorage::add_batch` (source lines 103-107). -/
def add_batch : CompressedStorage → List Nat → Except String CompressedStorage
  | s, [] => Except.ok s
  | s, v :: vs =>
    match add s v with
    | Except.error e => Except.error e
    | Except.ok s1 => add_batch s1 vs

/-- `add_batch` routed through `add_clean`; used only for the dead-fragment
equivalence claim. -/
def add_batch_clean : CompressedStorage → List Nat → Except String CompressedStorage
  | s, [] => Except.ok s
  | s, v :: vs =>
    match add_clean s v with
    | Except.error e => Except.error e
    | Except.ok s1 => add_batch_clean s1 vs

/-- The two-pointer loop of `find_block` (source lines 115-125).  The u32
computation `value + 1` is overflow-checked on every evaluation, as in the
Rust loop condition `blocks.get(mid).expect(..).initial < value + 1` under a
debug build.  `mid` always satisfies `left <= mid < right <= blocks.length`
for the call made by `find_block`, so the `.expect("mid block exists")` never
fires there and the lookup is embedded as `getD`. -/
def find_block_loop (blocks : List StorageBlock) (value : Nat) : Nat → Nat → Nat → Except String Nat
  | 0, left, _ => Except.ok left
  | fuel + 1, left, right =>
    if left < right then
      if value + 1 < 4294967296 then
        if (blocks.getD ((left + right) / 2) default).initial < value + 1 then
          find_block_loop blocks value fuel ((left + right) / 2 + 1) right
        else
          find_block_loop blocks value fuel left ((left + right) / 2)
      else Except.error "attempt to add with overflow"
    else Except.ok left

/-- Rust: `CompressedStorage::find_block` (source lines 114-133).  The result
computation `let block = left - 1;` is the usize subtraction that the debug
build overflow-checks; the trailing `debug_assert!` on the following block
becomes the final error branch. -/
def find_block (s : CompressedStorage) (value : Nat) : Except String (Option Nat) :=
  match find_block_loop s.blocks value (s.blocks.length + 1) 0 s.blocks.length with
  | Except.error e => Except.error e
  | Except.ok left =>
    if left = 0 then Except.error "attempt to subtract with overflow"
    else
      match s.blocks[(left - 1) + 1]? with
      | none => Except.ok (some (left - 1))
      | some next =>
        if value < next.initial then Except.ok (some (left - 1))
        else Except.error "assertion failed: next.is_none() or next.initial > value"

/-- The `for (i, v) in decompressed.iter().enumerate()` scan inside
`find_value` (source lines 140-145). -/
def scanBlock (value : Nat) (block : Nat) : List Nat → Nat → Option Nat
  | [], _ => none
  | v :: rest, i =>
    if v = value then some (block * BLOCK_SIZE + i) else scanBlock value block rest (i + 1)

/-- Rust: `CompressedStorage::find_value` (source lines 138-146). -/
def find_value (s : CompressedStorage) (value : Nat) (block : Nat) : Except String (Option Nat) :=
  match decompress_block s block with
  | Except.error e => Except.error e
  | Except.ok decompressed => Except.ok (scanBlock value block decompressed 0)

/-- Rust: `CompressedStorage::find` (source lines 149-154). -/
def find (s : CompressedStorage) (value : Nat) : Except String (Option Nat) :=
  match find_block s value with
  | Except.error e => Except.error e
  | Except.ok none => Except.ok none
  | Except.ok (some block) => find_value s value block

/-- The embedding of one call of the `&self` method `find`: it yields the
result together with the (unchanged) store the caller is left with. -/
def find_call (s : CompressedStorage) (value : Nat) : Except String (Option Nat) × CompressedStorage :=
  (find s value, s)

/-- Byte length of a committed block, derivable from its bit width alone:
`128 * bits / 8` (source line 87). -/
def blockBytes (b : StorageBlock) : Nat := BLOCK_SIZE * b.bits / 8

def sumBytes (blocks : List StorageBlock) : Nat := (blocks.map blockBytes).sum

/-- Well-formedness of a store: every block's byte offset is the total byte
length of the blocks before it, the compressed region is exactly the
concatenation of all blocks' bytes, and the pending buffer is not full. -/
def Wf (s : CompressedStorage) : Prop :=
  (∀ i, i < s.blocks.length → (s.blocks.getD i default).start = sumBytes (s.blocks.take i)) ∧
  s.compressed.length = sumBytes s.blocks ∧
  s.buffer.length < BLOCK_SIZE

instance (s : CompressedStorage) : Decidable (Wf s) := by
  unfold Wf
  infer_instance

/-- The store obtained by inserting the value 100 one hundred and twenty-eight
times: a single committed block with base 100, bit width 0 and no compressed
bytes. -/
def oneBlockStore : CompressedStorage := ⟨[⟨100, 0, 0⟩], [], []⟩

/-- The even values 100, 102, ..., 998 inserted by the repository's `storage`
test: `(100..1000).filter(|i| i % 2 == 0)`. -/
def evens450 : List Nat := (List.range 450).map (fun i => 100 + 2 * i)

/-- One committed block's worth of bytes for a block of consecutive even
values at bit width 8: the deltas 0, 2, ..., 254 themselves. -/
def evenBytes : List Nat := (List.range 128).map (fun i => 2 * i)

/-- The store reached by inserting `evens450` into a fresh store: three
committed blocks of 128 values each (bases 100, 356, 612, all at bit width 8)
and 66 values still pending. -/
def storeC4 : CompressedStorage :=
  ⟨[⟨100, 0, 8⟩, ⟨356, 128, 8⟩, ⟨612, 256, 8⟩], evenBytes ++ evenBytes ++ evenBytes,
   (List.range 66).map (fun i => 868 + 2 * i)⟩

/-- The strictly increasing values 100, 101, ..., 299 (200 insertions: one
full block of 128 plus 72 pending). -/
def seq200 : List Nat := (List.range 200).map (fun i => 100 + i)

/-- The next 56 values 300, 301, ..., 355 of the same increasing sequence. -/
def seq56 : List Nat := (List.range 56).map (fun i => 300 + i)

/-- The store reached by inserting `seq200` into a fresh store. -/
def storeC5a : CompressedStorage :=
  match add_batch CompressedStorage.new seq200 with
  | Except.ok s => s
  | Except.error _ => CompressedStorage.new

/-- The store reached by then inserting `seq56` into `storeC5a`. -/
def storeC5b : CompressedStorage :=
  match add_batch storeC5a seq56 with
  | Except.ok s => s
  | Except.error _ => CompressedStorage.new

/-- The store with a buffer of 128 sorted values, about to be compressed. -/
def fullBufferStore : CompressedStorage := ⟨[], [], List.range 128⟩

/-- A store with 127 buffered values: one more insertion commits a block. -/
def almostFullStore : CompressedStorage := ⟨[], [], List.range 127⟩

/-!  Codec lemmas: the pack/unpack pair is a bijection on batches whose
deltas fit the chosen width. -/

theorem natToBytes_length (k : Nat) : ∀ n, (natToBytes k n).length = k := by
  induction k with
  | zero => intro n; rfl
  | succ k ih => intro n; simp [natToBytes, ih]

theorem pack_length (initial : Nat) (values : List Nat) (bits : Nat) :
    (pack initial values bits).length = BLOCK_SIZE * bits / 8 :=
  natToBytes_length _ _

theorem bytesToNat_natToBytes (k : Nat) : ∀ n, n < 256 ^ k →
    bytesToNat (natToBytes k n) = n := by
  induction k with
  | zero =>
    intro n h
    simp only [pow_zero, Nat.lt_one_iff] at h
    simp [natToBytes, bytesToNat, h]
  | succ k ih =>
    intro n h
    have h2 : n / 256 < 256 ^ k := by
      have hp : (256 : Nat) ^ (k + 1) = 256 * 256 ^ k := by
        rw [pow_succ]; ring
      rw [hp] at h
      omega
    simp only [natToBytes, bytesToNat, ih _ h2]
    omega

theorem packDeltas_lt (bits : Nat) (ds : List Nat) :
    packDeltas bits ds < 2 ^ (bits * ds.length) := by
  induction ds with
  | nil => simp [packDeltas]
  | cons d t ih =>
    have hpos : 0 < 2 ^ bits := Nat.pos_pow_of_pos _ (by norm_num)
    have h1 : d % 2 ^ bits < 2 ^ bits := Nat.mod_lt _ hpos
    have h2 : packDeltas bits t + 1 ≤ 2 ^ (bits * t.length) := ih
    calc packDeltas bits (d :: t)
        = d % 2 ^ bits + 2 ^ bits * packDeltas bits t := rfl
      _ < 2 ^ bits * (packDeltas bits t + 1) := by
          rw [Nat.mul_add, Nat.mul_one]; omega
      _ ≤ 2 ^ bits * 2 ^ (bits * t.length) := Nat.mul_le_mul_left _ h2
      _ = 2 ^ (bits * (d :: t).length) := by
          rw [← pow_add, List.length_cons]; ring_nf

theorem unpackDeltas_packDeltas (bits : Nat) (ds : List Nat)
    (h : ∀ d ∈ ds, d < 2 ^ bits) :
    unpackDeltas bits ds.length (packDeltas bits ds) = ds := by
  induction ds with
  | nil => rfl
  | cons d t ih =>
    have hpos : 0 < 2 ^ bits := Nat.pos_pow_of_pos _ (by norm_num)
    have hd : d < 2 ^ bits := h d (List.mem_cons_self _ _)
    have hmod : d % 2 ^ bits = d := Nat.mod_eq_of_lt hd
    simp only [packDeltas, List.length_cons, unpackDeltas, hmod]
    rw [Nat.add_mul_mod_self_left, hmod, Nat.add_mul_div_left _ _ hpos,
        Nat.div_eq_of_lt hd, Nat.zero_add,
        ih (fun x hx => h x (List.mem_cons_of_mem _ hx))]

theorem map_add_sub_id (initial : Nat) (values : List Nat)
    (hge : ∀ v ∈ values, initial ≤ v) :
    values.map (fun v => initial + (v - initial)) = values := by
  induction values with
  | nil => rfl
  | cons a t ih =>
    have ha : initial ≤ a := hge a (List.mem_cons_self _ _)
    simp only [List.map_cons]
    rw [ih (fun v hv => hge v (List.mem_cons_of_mem _ hv))]
    congr 1
    omega

/-- The pack/unpack pair round-trips any 128-value batch whose deltas from
the base all fit the chosen width. -/
theorem unpack_pack (initial bits : Nat) (values : List Nat)
    (hlen : values.length = BLOCK_SIZE)
    (hfit : ∀ v ∈ values, v - initial < 2 ^ bits)
    (hge : ∀ v ∈ values, initial ≤ v) :
    unpack initial (pack initial values bits) bits = values := by
  have hdslen : (values.map (fun v => v - initial)).length = BLOCK_SIZE := by
    rw [List.length_map, hlen]
  have hdfit : ∀ d ∈ values.map (fun v => v - initial), d < 2 ^ bits := by
    intro d hd
    rcases List.mem_map.mp hd with ⟨v, hv, rfl⟩
    exact hfit v hv
  have hpow : (256 : Nat) ^ (BLOCK_SIZE * bits / 8) = 2 ^ (bits * BLOCK_SIZE) := by
    show (256 : Nat) ^ (128 * bits / 8) = 2 ^ (bits * 128)
    rw [show 128 * bits / 8 = 16 * bits by omega,
        show (256 : Nat) = 2 ^ 8 by norm_num, ← pow_mul]
    ring_nf
  have hN : packDeltas bits (values.map (fun v => v - initial)) < 256 ^ (BLOCK_SIZE * bits / 8) := by
    rw [hpow]
    have := packDeltas_lt bits (values.map (fun v => v - initial))
    rwa [hdslen] at this
  unfold pack unpack
  rw [bytesToNat_natToBytes _ _ hN, ← hdslen,
      unpackDeltas_packDeltas bits _ hdfit, List.map_map]
  exact map_add_sub_id initial values hge

theorem bitWidthAux_lt (fuel : Nat) : ∀ n, n < 2 ^ fuel → n < 2 ^ bitWidthAux fuel n := by
  induction fuel with
  | zero => intro n h; simpa [bitWidthAux] using h
  | succ fuel ih =>
    intro n h
    by_cases h0 : n = 0
    · simp [bitWidthAux, h0]
    · have hdiv : n / 2 < 2 ^ fuel := by
        have hp : (2 : Nat) ^ (fuel + 1) = 2 * 2 ^ fuel := by rw [pow_succ]; ring
        rw [hp] at h
        omega
      have h2 := ih (n / 2) hdiv
      simp only [bitWidthAux, if_neg h0]
      rw [pow_succ]
      omega

theorem le_maxDelta (initial : Nat) (values : List Nat) :
    ∀ v ∈ values, v - initial ≤ maxDelta initial values := by
  induction values with
  | nil => intro v hv; cases hv
  | cons a t ih =>
    intro v hv
    rcases List.mem_cons.mp hv with rfl | hv
    · exact le_max_left _ _
    · exact le_trans (ih v hv) (le_max_right _ _)

theorem maxDelta_lt (initial : Nat) (values : List Nat)
    (h : ∀ v ∈ values, v < 2 ^ 32) : maxDelta initial values < 2 ^ 32 := by
  induction values with
  | nil => simp [maxDelta]
  | cons a t ih =>
    have ha : a < 2 ^ 32 := h a (List.mem_cons_self _ _)
    have ht := ih (fun v hv => h v (List.mem_cons_of_mem _ hv))
    have : maxDelta initial (a :: t) = max (a - initial) (maxDelta initial t) := rfl
    rw [this]
    exact max_lt (by omega) ht

/-- Every delta of a u32 batch fits the width chosen by the codec. -/
theorem delta_fits (initial : Nat) (values : List Nat)
    (h32 : ∀ v ∈ values, v < 2 ^ 32) :
    ∀ v ∈ values, v - initial < 2 ^ num_bits_sorted initial values := by
  intro v hv
  have h1 : v - initial ≤ maxDelta initial values := le_maxDelta initial values v hv
  have h2 : maxDelta initial values < 2 ^ 64 :=
    lt_of_lt_of_le (maxDelta_lt initial values h32)
      (Nat.pow_le_pow_right (by norm_num) (by norm_num))
  exact lt_of_le_of_lt h1 (bitWidthAux_lt 64 _ h2)

/-- Successful-path characterization of `compress_buffer` on a full buffer. -/
theorem compress_buffer_eq (s : CompressedStorage) (a : Nat) (rest : List Nat)
    (hbuf : s.buffer = a :: rest) (hlen : s.buffer.length = BLOCK_SIZE) :
    compress_buffer s = Except.ok
      ⟨s.blocks ++ [⟨a, s.compressed.length, num_bits_sorted a s.buffer⟩],
       s.compressed ++ pack a s.buffer (num_bits_sorted a s.buffer), []⟩ := by
  unfold compress_buffer
  rw [if_pos hlen]
  rw [hbuf]
  simp only [List.head?_cons]
  rw [if_pos (pack_length a (a :: rest) (num_bits_sorted a (a :: rest)))]

/-!  Invariant lemmas: the block offsets tile the compressed region. -/

theorem sumBytes_append (l1 l2 : List StorageBlock) :
    sumBytes (l1 ++ l2) = sumBytes l1 + sumBytes l2 := by
  simp [sumBytes]

theorem sumBytes_take_add_le (l : List StorageBlock) :
    ∀ i, i < l.length →
      sumBytes (l.take i) + blockBytes (l.getD i default) ≤ sumBytes l := by
  induction l with
  | nil => intro i hi; simp at hi
  | cons b t ih =>
    intro i hi
    cases i with
    | zero =>
      have : sumBytes (b :: t) = blockBytes b + sumBytes t := by simp [sumBytes]
      simp only [List.take_zero, List.getD_cons_zero, this, sumBytes]
      simp
    | succ j =>
      have hj : j < t.length := by simpa using hi
      have h1 := ih j hj
      have h2 : sumBytes (b :: List.take j t) = blockBytes b + sumBytes (List.take j t) := by
        simp [sumBytes]
      have h3 : sumBytes (b :: t) = blockBytes b + sumBytes t := by simp [sumBytes]
      simp only [List.take_succ_cons, List.getD_cons_succ, h2, h3]
      omega

/-- `add` always succeeds on a well-formed store and preserves
well-formedness. -/
theorem wf_add (s : CompressedStorage) (v : Nat) (hWf : Wf s) :
    ∃ s1, add s v = Except.ok s1 ∧ Wf s1 := by
  obtain ⟨hstart, hclen, hblen⟩ := hWf
  by_cases hfull : s.buffer.length + 1 = BLOCK_SIZE
  · cases hb : s.buffer with
    | nil =>
      rw [hb] at hfull
      simp [BLOCK_SIZE] at hfull
    | cons a rest =>
      have hlapp : (s.buffer ++ [v]).length = BLOCK_SIZE := by
        rw [List.length_append, List.length_singleton]; exact hfull
      have hceq := compress_buffer_eq ⟨s.blocks, s.compressed, s.buffer ++ [v]⟩ a (rest ++ [v])
        (by show s.buffer ++ [v] = a :: (rest ++ [v]); rw [hb]; rfl) hlapp
      refine ⟨⟨s.blocks ++ [⟨a, s.compressed.length, num_bits_sorted a (s.buffer ++ [v])⟩],
               s.compressed ++ pack a (s.buffer ++ [v]) (num_bits_sorted a (s.buffer ++ [v])),
               []⟩, ?_, ?_, ?_, ?_⟩
      · show add s v = _
        unfold add
        rw [if_pos hlapp]
        exact hceq
      · -- block offsets
        dsimp only
        intro i hi
        rw [List.length_append, List.length_cons, List.length_nil] at hi
        rcases Nat.lt_or_ge i s.blocks.length with hlt | hge2
        · rw [List.getD_append _ _ _ _ hlt, List.take_append_eq_append_take,
            Nat.sub_eq_zero_of_le (le_of_lt hlt)]
          simp only [List.take_zero, List.append_nil]
          exact hstart i hlt
        · have hieq : i = s.blocks.length := by omega
          subst hieq
          rw [List.getD_append_right _ _ _ _ (le_refl _), Nat.sub_self,
            List.getD_cons_zero, List.take_left]
          exact hclen
      · -- compressed length
        dsimp only
        rw [List.length_append, pack_length, sumBytes_append, hclen]
        simp [sumBytes, blockBytes]
      · -- pending buffer cleared
        show ([] : List Nat).length < BLOCK_SIZE
        simp [BLOCK_SIZE]
  · have hlapp : (s.buffer ++ [v]).length ≠ BLOCK_SIZE := by
      rw [List.length_append, List.length_singleton]; exact hfull
    refine ⟨⟨s.blocks, s.compressed, s.buffer ++ [v]⟩, ?_, hstart, hclen, ?_⟩
    · unfold add
      rw [if_neg hlapp]
    · show (s.buffer ++ [v]).length < BLOCK_SIZE
      rw [List.length_append, List.length_singleton]
      omega

/-- `add_batch` always succeeds on a well-formed store and preserves
well-formedness. -/
theorem wf_add_batch (vs : List Nat) : ∀ s : CompressedStorage, Wf s →
    ∃ s1, add_batch s vs = Except.ok s1 ∧ Wf s1 := by
  induction vs with
  | nil => intro s hs; exact ⟨s, rfl, hs⟩
  | cons v t ih =>
    intro s hs
    obtain ⟨s1, h1, hs1⟩ := wf_add s v hs
    obtain ⟨s2, h2, hs2⟩ := ih s1 hs1
    refine ⟨s2, ?_, hs2⟩
    show add_batch s (v :: t) = Except.ok s2
    unfold add_batch
    rw [h1]
    exact h2

/-!  The dead fragment inside `compress_buffer` has no observable effect. -/

theorem compress_buffer_eq_clean (s : CompressedStorage) :
    compress_buffer s = compress_buffer_clean s := rfl

theorem add_eq_clean (s : CompressedStorage) (v : Nat) : add s v = add_clean s v := rfl

theorem add_batch_eq_clean (vs : List Nat) : ∀ s : CompressedStorage,
    add_batch s vs = add_batch_clean s vs := by
  induction vs with
  | nil => intro s; rfl
  | cons v t ih =>
    intro s
    show add_batch s (v :: t) = add_batch_clean s (v :: t)
    unfold add_batch add_batch_clean
    rw [← add_eq_clean]
    cases add s v with
    | error e => rfl
    | ok s1 => exact ih s1

/-- Decompressing the block just appended past `compressed` reads back
exactly the appended bytes. -/
theorem decompress_block_append (blocks : List StorageBlock) (compressed P : List Nat)
    (nb : StorageBlock) (buf : List Nat)
    (hstart : nb.start = compressed.length)
    (hbytes : P.length = BLOCK_SIZE * nb.bits / 8) :
    decompress_block ⟨blocks ++ [nb], compressed ++ P, buf⟩ blocks.length
      = Except.ok (unpack nb.initial P nb.bits) := by
  unfold decompress_block
  dsimp only
  rw [List.getElem?_concat_length]
  dsimp only
  rw [hstart, ← hbytes, List.length_append, if_pos (le_refl _), List.drop_left,
    List.take_length]

set_option maxRecDepth 100000 in
/-- Claim C1: the spec requires find_block to return None when no block has
base at most the query (empty store, or query below the first base).  The
code instead computes the usize expression left - 1 with left = 0: the debug
build panics with a subtraction-overflow error (the release build wraps to
usize::MAX and then panics at the expect inside decompress_block).  Evaluated
here at both failing inputs; the one-block store is shown reachable by 128
insertions of the value 100. -/
theorem find_none_guard_missing :
    find CompressedStorage.new 5 = Except.error "attempt to subtract with overflow" ∧
    add_batch CompressedStorage.new (List.replicate 128 100) = Except.ok oneBlockStore ∧
    find oneBlockStore 50 = Except.error "attempt to subtract with overflow" := by
  refine ⟨by decide, by decide, by decide⟩

/-- Claim C2: the spec requires find_block and find to complete without panic
or wraparound for every store state and every u32 query.  The code wraps in
two places: the loop condition computes value + 1, which overflows u32 at
value = u32::MAX as soon as one block exists, and the result computation
left - 1 underflows usize when the store is empty.  Evaluated at both
failing inputs. -/
theorem find_block_overflow_bug :
    find_block oneBlockStore 4294967295 = Except.error "attempt to add with overflow" ∧
    find_block CompressedStorage.new 0 = Except.error "attempt to subtract with overflow" := by
  refine ⟨by decide, by decide⟩

/-- Claim C3: compressing a sorted 128-value u32 batch at the width chosen by
the codec and decompressing the resulting bytes at the same base and width
yields exactly the original batch, as driven by compress_buffer and
decompress_block. -/
theorem pack_unpack_roundtrip (s : CompressedStorage)
    (hlen : s.buffer.length = BLOCK_SIZE)
    (hsorted : List.Pairwise (fun x y => x ≤ y) s.buffer)
    (hrange : ∀ v ∈ s.buffer, v < 2 ^ 32) :
    ∃ s1, compress_buffer s = Except.ok s1 ∧
      decompress_block s1 s.blocks.length = Except.ok s.buffer := by
  obtain ⟨a, rest, hbuf⟩ : ∃ a rest, s.buffer = a :: rest := by
    cases hb : s.buffer with
    | nil => rw [hb] at hlen; simp [BLOCK_SIZE] at hlen
    | cons a rest => exact ⟨a, rest, rfl⟩
  have hge : ∀ v ∈ s.buffer, a ≤ v := by
    intro v hv
    rw [hbuf] at hv hsorted
    rcases List.mem_cons.mp hv with rfl | hv2
    · exact le_refl v
    · exact (List.pairwise_cons.mp hsorted).1 v hv2
  refine ⟨_, compress_buffer_eq s a rest hbuf hlen, ?_⟩
  rw [decompress_block_append s.blocks s.compressed _ _ [] rfl (pack_length _ _ _)]
  rw [unpack_pack a _ s.buffer hlen (delta_fits a s.buffer hrange) hge]

set_option maxRecDepth 100000 in
theorem pack_unpack_roundtrip_witness :
    fullBufferStore.buffer.length = BLOCK_SIZE ∧
    (∃ s1, compress_buffer fullBufferStore = Except.ok s1 ∧
      decompress_block s1 fullBufferStore.blocks.length = Except.ok fullBufferStore.buffer) :=
  ⟨by decide, pack_unpack_roundtrip fullBufferStore (by decide) (by decide) (by decide)⟩

/-- Claim C6: the insertion that fills the buffer to 128 elements commits,
before add returns, exactly one new block whose base is the buffer's first
value, whose bit width is the codec's required width for the buffer, and
whose byte offset is the compressed region's previous length; exactly
128 * bits / 8 packed bytes are appended and the buffer is cleared. -/
theorem add_commits_block (s : CompressedStorage) (v : Nat)
    (h : s.buffer.length + 1 = BLOCK_SIZE) :
    ∃ initial bits,
      (s.buffer ++ [v]).head? = some initial ∧
      bits = num_bits_sorted initial (s.buffer ++ [v]) ∧
      add s v = Except.ok ⟨s.blocks ++ [⟨initial, s.compressed.length, bits⟩],
        s.compressed ++ pack initial (s.buffer ++ [v]) bits, []⟩ ∧
      (pack initial (s.buffer ++ [v]) bits).length = BLOCK_SIZE * bits / 8 := by
  cases hb : s.buffer with
  | nil => rw [hb] at h; simp [BLOCK_SIZE] at h
  | cons a rest =>
    rw [hb] at h
    have hlapp : ((a :: rest) ++ [v]).length = BLOCK_SIZE := by
      rw [List.length_append, List.length_singleton]; exact h
    refine ⟨a, num_bits_sorted a ((a :: rest) ++ [v]), rfl, rfl, ?_, pack_length _ _ _⟩
    unfold add
    rw [hb, if_pos hlapp]
    exact compress_buffer_eq ⟨s.blocks, s.compressed, (a :: rest) ++ [v]⟩ a (rest ++ [v])
      rfl hlapp

set_option maxRecDepth 100000 in
theorem add_commits_block_witness :
    almostFullStore.buffer.length + 1 = BLOCK_SIZE ∧
    (∃ initial bits,
      (almostFullStore.buffer ++ [500]).head? = some initial ∧
      bits = num_bits_sorted initial (almostFullStore.buffer ++ [500]) ∧
      add almostFullStore 500 = Except.ok
        ⟨almostFullStore.blocks ++ [⟨initial, almostFullStore.compressed.length, bits⟩],
         almostFullStore.compressed ++ pack initial (almostFullStore.buffer ++ [500]) bits,
         []⟩ ∧
      (pack initial (almostFullStore.buffer ++ [500]) bits).length = BLOCK_SIZE * bits / 8) :=
  ⟨by decide, add_commits_block almostFullStore 500 (by decide)⟩

/-- Claim C7: compress_buffer invoked on a buffer of any length other than
128 fails loudly with an assertion failure instead of proceeding (the
debug_assert_eq at the top of the function, active in the build
configuration the repository's tests use). -/
theorem compress_buffer_asserts_full (s : CompressedStorage)
    (h : s.buffer.length ≠ BLOCK_SIZE) :
    compress_buffer s = Except.error "assertion failed: buffer.len() == BLOCK_SIZE" := by
  unfold compress_buffer
  rw [if_neg h]

theorem compress_buffer_asserts_full_witness :
    CompressedStorage.new.buffer.length ≠ BLOCK_SIZE ∧
    compress_buffer CompressedStorage.new
      = Except.error "assertion failed: buffer.len() == BLOCK_SIZE" :=
  ⟨by decide, compress_buffer_asserts_full CompressedStorage.new (by decide)⟩

/-- Claim C8: the duplicated fragment inside compress_buffer (source lines
69-79) is dead code: removing it leaves compress_buffer, and with it every
add and add_batch, extensionally unchanged (find does not involve
compression at all, so every subsequent lookup result is identical too). -/
theorem dead_fragment_is_dead :
    (∀ s, compress_buffer s = compress_buffer_clean s) ∧
    (∀ s v, add s v = add_clean s v) ∧
    (∀ s vs, add_batch s vs = add_batch_clean s vs) :=
  ⟨compress_buffer_eq_clean, add_eq_clean, fun s vs => add_batch_eq_clean vs s⟩

/-- Claim C9: find is a deterministic, read-only operation: a call leaves
the store exactly as it was, and an immediately repeated call returns the
same result.  In this embedding the Rust signature fn find(&self, ..) is a
pure function of the store, so both facts hold definitionally. -/
theorem find_idempotent_pure :
    ∀ (s : CompressedStorage) (v : Nat),
      (find_call s v).2 = s ∧
      (find_call ((find_call s v).2) v).1 = (find_call s v).1 ∧
      (find_call ((find_call s v).2) v).2 = s :=
  fun _ _ => ⟨rfl, rfl, rfl⟩

/-- Claim C10: starting from a fresh store, every add and add_batch succeeds
and preserves the offset invariant: each block's start is the total byte
length of the blocks before it, the compressed region's length is the total
over all blocks (hence every slice read by decompress_block is in bounds),
and the pending buffer stays below 128 elements.  find does not touch the
state at all in this embedding. -/
theorem store_offsets_invariant :
    Wf CompressedStorage.new ∧
    (∀ s v, Wf s → ∃ s1, add s v = Except.ok s1 ∧ Wf s1) ∧
    (∀ s vs, Wf s → ∃ s1, add_batch s vs = Except.ok s1 ∧ Wf s1) ∧
    (∀ s, Wf s → ∀ i, i < s.blocks.length →
      (s.blocks.getD i default).start + blockBytes (s.blocks.getD i default)
        ≤ s.compressed.length) := by
  refine ⟨by decide, wf_add, fun s vs hs => wf_add_batch vs s hs, ?_⟩
  intro s hs i hi
  obtain ⟨hstart, hclen, _⟩ := hs
  rw [hstart i hi, hclen]
  exact sumBytes_take_add_le s.blocks i hi

theorem store_offsets_invariant_witness :
    Wf CompressedStorage.new ∧
    (∃ s1, add CompressedStorage.new 7 = Except.ok s1 ∧ Wf s1) :=
  ⟨store_offsets_invariant.1, store_offsets_invariant.2.1 CompressedStorage.new 7 (by decide)⟩

set_option maxRecDepth 100000 in
/-- Claim C4 (counterexample): the claim asserts find(v) = Some(insertion
index) for every even v in the inserted range, but the value 868 — inserted
at index 384, the first value past the three committed blocks — is still in
the pending buffer, and find returns None for it. -/
theorem evens_lookup_pending_counterexample :
    evens450.getD 384 0 = 868 ∧
    find storeC4 868 = Except.ok none ∧
    find storeC4 868 ≠ Except.ok (some 384) := by
  refine ⟨by decide, by decide, by decide⟩

set_option maxRecDepth 100000 in
/-- Claim C4 (amended): after inserting the 450 even numbers 100, 102, ...,
998 into a fresh store, find returns Some(insertion index) for each of the
first 384 inserted values (those in the three committed blocks), None for
every odd value in the range, and None for the 66 trailing even values that
are still in the pending buffer. -/
theorem evens_lookup_committed :
    add_batch CompressedStorage.new evens450 = Except.ok storeC4 ∧
    ((List.range 384).all fun i => decide (find storeC4 (100 + 2 * i) = Except.ok (some i))) = true ∧
    ((List.range 450).all fun i => decide (find storeC4 (101 + 2 * i) = Except.ok none)) = true ∧
    ((List.range 66).all fun i => decide (find storeC4 (868 + 2 * i) = Except.ok none)) = true := by
  refine ⟨by decide, by decide, by decide, by decide⟩

set_option maxRecDepth 100000 in
/-- Claim C5: find never consults the pending buffer (first conjunct:
emptying the buffer never changes any lookup).  Concretely: after inserting
the 200 increasing values 100..299 (one committed block plus 72 pending),
find on each of the last 72 values 228..299 returns None; after inserting
the 56 further values 300..355 (two committed blocks), those same 72 values
are found at their insertion positions 128..199. -/
theorem pending_buffer_invisible :
    (∀ (s : CompressedStorage) (v : Nat), find s v = find ⟨s.blocks, s.compressed, []⟩ v) ∧
    add_batch CompressedStorage.new seq200 = Except.ok storeC5a ∧
    storeC5a.buffer.length = 72 ∧
    ((List.range 72).all fun i => decide (find storeC5a (228 + i) = Except.ok none)) = true ∧
    add_batch storeC5a seq56 = Except.ok storeC5b ∧
    ((List.range 72).all fun i => decide (find storeC5b (228 + i) = Except.ok (some (128 + i)))) = true := by
  refine ⟨fun s v => rfl, by decide, by decide, by decide, by decide, by decide⟩

end Chidx
